import Mathlib

/-!
# Verification of the NIST-beacon lottery-number core

Shallow embedding of `src/generators/LotteryGenerator.ts`:

* `quarterRound`, `chachaBlock`   — the ChaCha20-style block function;
* `initState`, `mkGen`, `next`    — the counter-mode stream generator
  (`createCSPRNG` in the source, split into its initialisation and the
  closure returned from it);
* `generateUniqueNumbersCore`, `generateUniqueNumbers` — the Fisher–Yates
  sampler;
* `hexToBytes`                    — hex decoding (including the
  ECMAScript `parseInt(·, 16)` semantics the source relies on);
* `validateNumbers`               — the structural validator.

Machine words are `Nat` with explicit `% 2^32` masking where the source
relies on `>>> 0` / `Uint32Array` truncation.  The 16-word cipher state and
the byte seed are `List Nat`; out-of-range `Uint8Array`/`Uint32Array` reads
(which yield `undefined`, coerced to `0` by the source's arithmetic) are
modelled by `List.getD _ _ 0`.
-/

/-- Truncation to an unsigned 32-bit word (`>>> 0` in the source). -/
def mask32 (x : Nat) : Nat := x % 2^32

/-- 32-bit left rotation: `((x << n) | (x >>> (32 - n))) >>> 0`. -/
def rotl32 (x n : Nat) : Nat := ((x <<< n) ||| (x >>> (32 - n))) % 2^32

/-- `quarterRound(a, b, c, d, state)` from the source: the ChaCha20 quarter
round acting in place on the words at positions `a b c d` of the 16-word
state, with rotation amounts 16, 12, 8, 7.  Each addition is truncated with
`>>> 0`; XOR of in-range words needs no truncation. -/
def quarterRound (a b c d : Nat) (s : List Nat) : List Nat :=
  let s1 := s.set a ((s.getD a 0 + s.getD b 0) % 2^32)
  let s2 := s1.set d ((s1.getD d 0) ^^^ (s1.getD a 0))
  let s3 := s2.set d (rotl32 (s2.getD d 0) 16)
  let s4 := s3.set c ((s3.getD c 0 + s3.getD d 0) % 2^32)
  let s5 := s4.set b ((s4.getD b 0) ^^^ (s4.getD c 0))
  let s6 := s5.set b (rotl32 (s5.getD b 0) 12)
  let s7 := s6.set a ((s6.getD a 0 + s6.getD b 0) % 2^32)
  let s8 := s7.set d ((s7.getD d 0) ^^^ (s7.getD a 0))
  let s9 := s8.set d (rotl32 (s8.getD d 0) 8)
  let s10 := s9.set c ((s9.getD c 0 + s9.getD d 0) % 2^32)
  let s11 := s10.set b ((s10.getD b 0) ^^^ (s10.getD c 0))
  s11.set b (rotl32 (s11.getD b 0) 7)

/-- The final loop of `chachaBlock`: `output[i] = (working[i] + input[i]) >>> 0`
for `i = 0 .. 15`. -/
def addWords (working input : List Nat) : List Nat :=
  (List.range 16).map (fun i => (working.getD i 0 + input.getD i 0) % 2^32)

/-- `chachaBlock(input, output)` from the source: copy the input state into a
working buffer, run 10 double rounds (each one column pass followed by one
diagonal pass of quarter rounds), then add the original input word-by-word
mod `2^32`. -/
def chachaBlock (input : List Nat) : List Nat :=
  let working := (List.range 10).foldl (fun w _ =>
    quarterRound 3 4 9 14 (quarterRound 2 7 8 13 (quarterRound 1 6 11 12
      (quarterRound 0 5 10 15
        (quarterRound 3 7 11 15 (quarterRound 2 6 10 14 (quarterRound 1 5 9 13
          (quarterRound 0 4 8 12 w)))))))) input
  addWords working input

/-- Spec-side description: the "column" quarter-round pass over word groups
(0,4,8,12), (1,5,9,13), (2,6,10,14), (3,7,11,15). -/
def columnPass (s : List Nat) : List Nat :=
  quarterRound 3 7 11 15 (quarterRound 2 6 10 14 (quarterRound 1 5 9 13
    (quarterRound 0 4 8 12 s)))

/-- Spec-side description: the "diagonal" quarter-round pass over word groups
(0,5,10,15), (1,6,11,12), (2,7,8,13), (3,4,9,14). -/
def diagonalPass (s : List Nat) : List Nat :=
  quarterRound 3 4 9 14 (quarterRound 2 7 8 13 (quarterRound 1 6 11 12
    (quarterRound 0 5 10 15 s)))

/-- Spec-side description: one double round = column pass then diagonal pass. -/
def doubleRound (s : List Nat) : List Nat := diagonalPass (columnPass s)

/-- Spec-side description of the block step: exactly 10 double rounds applied
to (a working copy of) the state, then the original pre-round state added
word-by-word mod `2^32`. -/
def chachaBlockSpec (input : List Nat) : List Nat :=
  addWords (doubleRound^[10] input) input

/-! ## The stream generator (`createCSPRNG` in the source) -/

/-- The little-endian word loaded from four consecutive seed bytes:
`seed[4i] | (seed[4i+1] << 8) | (seed[4i+2] << 16) | (seed[4i+3] << 24) >>> 0`.
Out-of-range `Uint8Array` reads give `undefined`, which the bitwise ops
coerce to `0`, hence the `getD _ _ 0`. -/
def leWord (seed : List Nat) (i : Nat) : Nat :=
  ((seed.getD (i * 4) 0) ||| ((seed.getD (i * 4 + 1) 0) <<< 8) |||
    ((seed.getD (i * 4 + 2) 0) <<< 16) ||| ((seed.getD (i * 4 + 3) 0) <<< 24)) % 2^32

/-- The initial 16-word cipher state built by `createCSPRNG`: words 0–7 from
the seed (the loop runs while `i < 8 && i * 4 < seed.length`), words 8–11 the
four ChaCha20 constants, words 12–15 (counter and nonce) zero. -/
def initState (seed : List Nat) : List Nat :=
  let s := List.replicate 16 0
  let s := (List.range 8).foldl
    (fun st i => if i * 4 < seed.length then st.set i (leWord seed i) else st) s
  let s := s.set 8 0x61707865
  let s := s.set 9 0x3320646e
  let s := s.set 10 0x79622d32
  let s := s.set 11 0x6b206574
  let s := s.set 12 0
  let s := s.set 13 0
  let s := s.set 14 0
  s.set 15 0

/-- The mutable state captured by the closure `createCSPRNG` returns:
the 16-word cipher state, the 16-word output buffer, and the cursor
`bufferIndex` into the buffer. -/
structure GenState where
  state : List Nat
  buffer : List Nat
  bufferIndex : Nat
deriving Repr, DecidableEq

/-- The generator as constructed by `createCSPRNG(seed)`: initial cipher
state, a fresh all-zero `Uint32Array(16)` buffer, and `bufferIndex = 16`
(forcing block generation on the first draw). -/
def mkGen (seed : List Nat) : GenState :=
  { state := initState seed, buffer := List.replicate 16 0, bufferIndex := 16 }

/-- The refill step of the closure: generate a new block from the current
cipher state, increment the low counter word mod `2^32` (carrying into word
13 when it wraps to zero), and reset the cursor to 0. -/
def refill (g : GenState) : GenState :=
  let buf := chachaBlock g.state
  let st := g.state.set 12 ((g.state.getD 12 0 + 1) % 2^32)
  let st := if st.getD 12 0 = 0 then st.set 13 ((st.getD 13 0 + 1) % 2^32) else st
  { state := st, buffer := buf, bufferIndex := 0 }

/-- One call of the closure returned by `createCSPRNG`, producing the raw
32-bit word `buffer[bufferIndex++]` (after a refill when the buffer is
exhausted).  The source finally returns `value / 2^32` as a binary64 float;
since the draw is only ever used as `Math.floor(rng() * n)` with small `n`
(at most the pool size, 50 in this repository), where binary64 arithmetic is
exact, consumers below work with the raw word directly. -/
def next (g : GenState) : Nat × GenState :=
  let g' := if 16 ≤ g.bufferIndex then refill g else g
  (g'.buffer.getD g'.bufferIndex 0, { g' with bufferIndex := g'.bufferIndex + 1 })

/-- The generator state after `n` draws. -/
def stepN (n : Nat) (g : GenState) : GenState := (fun s => (next s).2)^[n] g

/-- The `n`-th (0-based) raw 32-bit word drawn from a generator. -/
def drawStream (g : GenState) (n : Nat) : Nat := (next (stepN n g)).1

/-- Spec-side description of a little-endian word load: the arithmetic value
of four consecutive seed bytes, least significant first. -/
def leWordSpec (seed : List Nat) (i : Nat) : Nat :=
  seed.getD (4 * i) 0 + 2^8 * seed.getD (4 * i + 1) 0 +
    2^16 * seed.getD (4 * i + 2) 0 + 2^24 * seed.getD (4 * i + 3) 0

/-- Well-formedness of a generator: every buffered word fits in 32 bits.
This holds for freshly constructed generators (all-zero buffer) and is
preserved by every draw, since refilled buffers come out of `chachaBlock`
masked to 32 bits. -/
def GenWF (g : GenState) : Prop := ∀ x ∈ g.buffer, x < 2^32

/-! ## The sampler (`generateUniqueNumbers` in the source) -/

/-- The destructuring swap `[pool[i], pool[j]] = [pool[j], pool[i]]`. -/
def swap (l : List Int) (i j : Nat) : List Int :=
  (l.set i (l.getD j 0)).set j (l.getD i 0)

/-- `Math.floor(rng() * n)` for a raw 32-bit draw `v`: the float returned by
`rng()` is exactly `v / 2^32`, and for `n ≤ 2^21` the binary64 product
`(v / 2^32) * n` is exact, so the floor is the integer division below. -/
def drawIndex (v n : Nat) : Nat := v * n / 2^32

/-- The Fisher–Yates loop `for (let i = pool.length - 1; i > 0; i--)`,
parameterised by the current loop index: at index `i ≥ 1` draw
`j = Math.floor(rng() * (i + 1))`, swap positions `i` and `j`, continue
with `i - 1`. -/
def fyLoop : List Int → GenState → Nat → List Int × GenState
  | pool, g, 0 => (pool, g)
  | pool, g, i + 1 =>
    let p := next g
    let j := drawIndex p.1 (i + 2)
    fyLoop (swap pool (i + 1) j) p.2 i

/-- The candidate pool `Array.from({length: max - min + 1}, (_, i) => i + min)`;
a non-positive length yields the empty array. -/
def mkPool (mn mx : Int) : List Int :=
  List.map (fun k : Nat => mn + (k : Int)) (List.range (mx - mn + 1).toNat)

/-- The body of `generateUniqueNumbers`, acting on an explicit generator
state (the source creates the generator from the derived seed right after
the range check; the final generator state is returned here so that the
number of consumed draws is observable).  Checks the range precondition,
builds the pool, runs the full in-place Fisher–Yates shuffle, and returns
the first `count` elements sorted ascending (`.sort((a, b) => a - b)`). -/
def generateUniqueNumbersCore (g : GenState) (count : Nat) (mn mx : Int) :
    Except String (List Int × GenState) :=
  if (count : Int) > mx - mn + 1 then
    .error "Cannot generate count unique numbers from range min-max"
  else
    let pool := mkPool mn mx
    let r := fyLoop pool g (pool.length - 1)
    .ok (List.insertionSort (fun a b => a ≤ b) (r.1.take count), r.2)

/-- `generateUniqueNumbers(seed, count, min, max)` from the source: range
check, then create the CSPRNG from the 32-byte seed and sample. -/
def generateUniqueNumbers (seed : List Nat) (count : Nat) (mn mx : Int) :
    Except String (List Int) :=
  (generateUniqueNumbersCore (mkGen seed) count mn mx).map Prod.fst

/-- Spec-side description of the full in-place Fisher–Yates shuffle: for
index `i` from `pool.length - 1` down to `1`, draw
`j = floor(rng() * (i + 1))` from the stream generator and swap `pool[i]`
and `pool[j]`. -/
def specShuffleLoop : List Int → GenState → Nat → List Int
  | pool, _, 0 => pool
  | pool, g, i + 1 =>
    specShuffleLoop (swap pool (i + 1) ((next g).1 * (i + 2) / 2^32)) (next g).2 i

/-- Spec-side description: the fully shuffled pool. -/
def specShuffle (pool : List Int) (g : GenState) : List Int :=
  specShuffleLoop pool g (pool.length - 1)

/-! ## Hex decoding (`hexToBytes` in the source) -/

/-- The characters matched by the ECMAScript regular-expression class `\s`
(as used in `hex.replace(/\s/g, '')`): tab, LF, VT, FF, CR, space, NBSP,
Ogham space mark, the U+2000–U+200A spaces, LS, PS, NNBSP, MMSP,
ideographic space, and BOM. -/
def isJsWhitespace (c : Char) : Bool :=
  c = ' ' || c = '\t' || c = '\n' || c.toNat = 11 || c.toNat = 12 || c = '\r' ||
  c.toNat = 0xa0 || c.toNat = 0x1680 ||
  (decide (0x2000 ≤ c.toNat) && decide (c.toNat ≤ 0x200a)) ||
  c.toNat = 0x2028 || c.toNat = 0x2029 || c.toNat = 0x202f || c.toNat = 0x205f ||
  c.toNat = 0x3000 || c.toNat = 0xfeff

/-- The numeric value of a hexadecimal digit, if the character is one. -/
def hexVal (c : Char) : Option Nat :=
  if '0' ≤ c ∧ c ≤ '9' then some (c.toNat - '0'.toNat)
  else if 'a' ≤ c ∧ c ≤ 'f' then some (c.toNat - 'a'.toNat + 10)
  else if 'A' ≤ c ∧ c ≤ 'F' then some (c.toNat - 'A'.toNat + 10)
  else none

/-- Modelled from the ECMAScript specification of `parseInt(s, 16)` for a
two-character string `s = c0 c1` with no whitespace (the source strips
whitespace before slicing pairs): an optional sign, then an optional `0x` /
`0X` prefix, then the longest prefix of hexadecimal digits; `NaN` (here
`none`) when that digit prefix is empty.  In particular a non-digit in the
second position is simply ignored when the first position parses. -/
def parseIntHex2 (c0 c1 : Char) : Option Int :=
  if c0 = '0' ∧ (c1 = 'x' ∨ c1 = 'X') then none
  else
    match hexVal c0 with
    | some d0 =>
      match hexVal c1 with
      | some d1 => some (16 * (d0 : Int) + (d1 : Int))
      | none => some (d0 : Int)
    | none =>
      if c0 = '+' then (hexVal c1).map (fun d => (d : Int))
      else if c0 = '-' then (hexVal c1).map (fun d => -(d : Int))
      else none

/-- The decoding loop of `hexToBytes`: parse consecutive two-character
chunks with `parseInt(·, 16)`, fail on `NaN`, and store the value into a
`Uint8Array` (coercion mod 256, so e.g. `parseInt("-1", 16) = -1` is stored
as `255`). -/
def hexPairs : List Char → Except String (List Nat)
  | [] => .ok []
  | c0 :: c1 :: rest =>
    match parseIntHex2 c0 c1 with
    | none => .error "Invalid hex character in beacon value"
    | some v => (hexPairs rest).map (fun bs => (v % 256).toNat :: bs)
  | [_] => .error "Invalid hex string: odd length"

/-- `hexToBytes(hex)` from the source: strip every `\s` character, reject an
odd-length remainder, then decode two characters at a time. -/
def hexToBytes (s : List Char) : Except String (List Nat) :=
  let cleanHex := s.filter (fun c => !(isJsWhitespace c))
  if cleanHex.length % 2 ≠ 0 then .error "Invalid hex string: odd length"
  else hexPairs cleanHex

/-! ## The validator (`validateNumbers` in the source) -/

/-- `validateNumbers(numbers, expectedCount, min, max)` from the source.
JavaScript numbers are binary64 floats; finite floats are rationals, so the
inputs are modelled as `ℚ` (`NaN`/infinities, which the checks also reject,
have no model here).  Checks in order: length; distinctness via `Set` size
(`List.dedup` preserves first occurrences exactly as `new Set` does); then
`num < min || num > max || !Number.isInteger(num)` fails the element check. -/
def validateNumbers (numbers : List ℚ) (expectedCount : Nat) (mn mx : ℚ) : Bool :=
  if numbers.length ≠ expectedCount then false
  else if numbers.dedup.length ≠ expectedCount then false
  else numbers.all (fun num => !(decide (num < mn) || decide (mx < num) || !num.isInt))

/-!
## Theorems
-/

/-- **C1.** The block-generation step, on any 16-word state, is exactly 10
double rounds — a column quarter-round pass over (0,4,8,12), (1,5,9,13),
(2,6,10,14), (3,7,11,15) followed by a diagonal pass over (0,5,10,15),
(1,6,11,12), (2,7,8,13), (3,4,9,14), each quarter round performing
`a += b; d ^= a; d <<<= 16; c += d; b ^= c; b <<<= 12; a += b; d ^= a;
d <<<= 8; c += d; b ^= c; b <<<= 7` mod `2^32` — followed by the word-wise
addition of the original pre-round state mod `2^32`. -/
theorem chachaBlock_eq_spec (s : List Nat) : chachaBlock s = chachaBlockSpec s := by
  have h10 : List.range 10 = [0, 1, 2, 3, 4, 5, 6, 7, 8, 9] := rfl
  simp only [chachaBlock, chachaBlockSpec, h10, List.foldl_cons, List.foldl_nil,
    Function.iterate_succ_apply', Function.iterate_zero_apply,
    doubleRound, diagonalPass, columnPass]

theorem byte_lor_eq_add {b0 b1 b2 b3 : Nat} (h0 : b0 < 2^8) (h1 : b1 < 2^8)
    (h2 : b2 < 2^8) (h3 : b3 < 2^8) :
    (b0 ||| b1 <<< 8 ||| b2 <<< 16 ||| b3 <<< 24) =
      b0 + 2^8 * b1 + 2^16 * b2 + 2^24 * b3 := by
  rw [Nat.shiftLeft_eq, Nat.shiftLeft_eq, Nat.shiftLeft_eq]
  have e1 : b0 ||| b1 * 2^8 = b0 + 2^8 * b1 := by
    rw [Nat.lor_comm, mul_comm, ← Nat.mul_add_lt_is_or h0]
    omega
  have e2 : b0 + 2^8 * b1 ||| b2 * 2^16 = b0 + 2^8 * b1 + 2^16 * b2 := by
    rw [Nat.lor_comm, mul_comm, ← Nat.mul_add_lt_is_or (show b0 + 2^8 * b1 < 2^16 by omega)]
    omega
  have e3 : b0 + 2^8 * b1 + 2^16 * b2 ||| b3 * 2^24 =
      b0 + 2^8 * b1 + 2^16 * b2 + 2^24 * b3 := by
    rw [Nat.lor_comm, mul_comm,
      ← Nat.mul_add_lt_is_or (show b0 + 2^8 * b1 + 2^16 * b2 < 2^24 by omega)]
    omega
  rw [e1, e2, e3]

theorem getD_lt_256 {seed : List Nat} (hb : ∀ x ∈ seed, x < 256) (k : Nat) :
    seed.getD k 0 < 256 := by
  rcases lt_or_le k seed.length with h | h
  · rw [List.getD_eq_getElem?_getD, List.getElem?_eq_getElem h]
    exact hb _ (List.getElem_mem h)
  · rw [List.getD_eq_getElem?_getD, List.getElem?_eq_none h]
    simp

theorem leWord_eq_spec {seed : List Nat} (hb : ∀ x ∈ seed, x < 256) (i : Nat) :
    leWord seed i = leWordSpec seed i := by
  have h0 := getD_lt_256 hb (i * 4)
  have h1 := getD_lt_256 hb (i * 4 + 1)
  have h2 := getD_lt_256 hb (i * 4 + 2)
  have h3 := getD_lt_256 hb (i * 4 + 3)
  rw [leWord, byte_lor_eq_add (by omega) (by omega) (by omega) (by omega),
    Nat.mod_eq_of_lt (by omega)]
  simp only [leWordSpec, mul_comm i 4]

theorem initState_eq (seed : List Nat) (hlen : seed.length = 32) :
    initState seed = [leWord seed 0, leWord seed 1, leWord seed 2, leWord seed 3,
      leWord seed 4, leWord seed 5, leWord seed 6, leWord seed 7,
      0x61707865, 0x3320646e, 0x79622d32, 0x6b206574, 0, 0, 0, 0] := by
  have h8 : List.range 8 = [0, 1, 2, 3, 4, 5, 6, 7] := rfl
  simp only [initState, h8, List.foldl_cons, List.foldl_nil, hlen]
  norm_num [List.set]

/-- **C4.** On construction from a 32-byte seed the generator state has words
0–7 loaded little-endian from the seed (4 bytes per word), words 8–11 the
fixed constants `0x61707865, 0x3320646e, 0x79622d32, 0x6b206574`, words
12–15 zero, and the output cursor at 16 (past the end of the buffer), so the
first draw triggers block generation. -/
theorem mkGen_init (seed : List Nat) (hlen : seed.length = 32)
    (hb : seed.all (fun b => b < 256) = true) :
    (∀ i, i < 8 → (mkGen seed).state.getD i 0 = leWordSpec seed i) ∧
    (mkGen seed).state.getD 8 0 = 0x61707865 ∧
    (mkGen seed).state.getD 9 0 = 0x3320646e ∧
    (mkGen seed).state.getD 10 0 = 0x79622d32 ∧
    (mkGen seed).state.getD 11 0 = 0x6b206574 ∧
    (∀ i, 12 ≤ i → i < 16 → (mkGen seed).state.getD i 0 = 0) ∧
    (mkGen seed).bufferIndex = 16 := by
  simp only [List.all_eq_true, decide_eq_true_eq] at hb
  have hst : (mkGen seed).state = initState seed := rfl
  rw [hst, initState_eq seed hlen]
  refine ⟨fun i hi => ?_, rfl, rfl, rfl, rfl, fun i h12 h16 => ?_, rfl⟩
  · interval_cases i <;>
      simp [List.getD, leWord_eq_spec hb]
  · interval_cases i <;> rfl

/-- Witness for C4 at the concrete seed `[0, 1, …, 31]`. -/
theorem mkGen_init_witness :
    (List.range 32).length = 32 ∧
    (List.range 32).all (fun b => b < 256) = true ∧
    (mkGen (List.range 32)).state.getD 5 0 = leWordSpec (List.range 32) 5 ∧
    (mkGen (List.range 32)).state.getD 8 0 = 0x61707865 ∧
    (mkGen (List.range 32)).state.getD 13 0 = 0 ∧
    (mkGen (List.range 32)).bufferIndex = 16 := by
  have main := mkGen_init (List.range 32) (by decide) (by decide)
  exact ⟨by decide, by decide, main.1 5 (by norm_num), main.2.1,
    main.2.2.2.2.2.1 13 (by norm_num) (by norm_num), main.2.2.2.2.2.2⟩

theorem getD_set_self {l : List Nat} {i : Nat} (h : i < l.length) (v : Nat) :
    (l.set i v).getD i 0 = v := by
  rw [List.getD_eq_getElem?_getD, List.getElem?_set_self h]
  rfl

theorem getD_set_ne {l : List Nat} {i j : Nat} (h : i ≠ j) (v : Nat) :
    (l.set i v).getD j 0 = l.getD j 0 := by
  rw [List.getD_eq_getElem?_getD, List.getElem?_set_ne h, ← List.getD_eq_getElem?_getD]

/-- **C5.** Each refill (triggered exactly when the cursor has run past the
16-word buffer) increments state word 12 by 1 mod `2^32`, increments word 13
by 1 mod `2^32` exactly when word 12 wraps to zero, and leaves every other
state word unchanged; a draw that does not refill leaves the cipher state
untouched. -/
theorem counter_advance (g : GenState) (hst : g.state.length = 16) :
    (16 ≤ g.bufferIndex →
      (next g).2.state.getD 12 0 = (g.state.getD 12 0 + 1) % 2^32 ∧
      (next g).2.state.getD 13 0 =
        (if (g.state.getD 12 0 + 1) % 2^32 = 0 then (g.state.getD 13 0 + 1) % 2^32
         else g.state.getD 13 0) ∧
      (∀ k, k < 16 → k ≠ 12 → k ≠ 13 → (next g).2.state.getD k 0 = g.state.getD k 0)) ∧
    (g.bufferIndex < 16 → (next g).2.state = g.state) := by
  constructor
  · intro h16
    have hnext : (next g).2.state = (refill g).state := by
      simp [next, if_pos h16]
    have h12len : (12 : Nat) < g.state.length := by omega
    have e12 : (g.state.set 12 ((g.state.getD 12 0 + 1) % 2^32)).getD 12 0 =
        (g.state.getD 12 0 + 1) % 2^32 := getD_set_self h12len _
    rw [hnext, refill]
    simp only [e12]
    by_cases hwrap : (g.state.getD 12 0 + 1) % 2^32 = 0
    · have h13len : (13 : Nat) <
          (g.state.set 12 ((g.state.getD 12 0 + 1) % 2^32)).length := by
        simp [List.length_set]; omega
      refine ⟨?_, ?_, ?_⟩
      · simp only [if_pos hwrap, getD_set_ne (show (13 : Nat) ≠ 12 by omega), e12]
      · simp only [if_pos hwrap, getD_set_self h13len,
          getD_set_ne (show (12 : Nat) ≠ 13 by omega)]
      · intro k hk h12 h13
        simp only [if_pos hwrap, getD_set_ne (show (13 : Nat) ≠ k from fun h => h13 h.symm),
          getD_set_ne (show (12 : Nat) ≠ k from fun h => h12 h.symm)]
    · refine ⟨?_, ?_, ?_⟩
      · simp only [if_neg hwrap, e12]
      · simp only [if_neg hwrap, getD_set_ne (show (12 : Nat) ≠ 13 by omega)]
      · intro k hk h12 h13
        simp only [if_neg hwrap, getD_set_ne (show (12 : Nat) ≠ k from fun h => h12 h.symm)]
  · intro hlt
    simp [next, if_neg (by omega : ¬ 16 ≤ g.bufferIndex)]

/-- Witness for C5: the freshly constructed all-zero-seed generator refills
on its first draw (cursor at 16), and the same generator with cursor 0 does
not touch the cipher state. -/
theorem counter_advance_witness :
    (mkGen (List.replicate 32 0)).state.length = 16 ∧
    16 ≤ (mkGen (List.replicate 32 0)).bufferIndex ∧
    (next (mkGen (List.replicate 32 0))).2.state.getD 12 0 =
      ((mkGen (List.replicate 32 0)).state.getD 12 0 + 1) % 2^32 ∧
    (next (mkGen (List.replicate 32 0))).2.state.getD 0 0 =
      (mkGen (List.replicate 32 0)).state.getD 0 0 ∧
    ({ mkGen (List.replicate 32 0) with bufferIndex := 0 } : GenState).bufferIndex < 16 ∧
    (next ({ mkGen (List.replicate 32 0) with bufferIndex := 0 } : GenState)).2.state =
      ({ mkGen (List.replicate 32 0) with bufferIndex := 0 } : GenState).state := by
  have m1 := counter_advance (mkGen (List.replicate 32 0)) (by decide)
  have m2 := counter_advance ({ mkGen (List.replicate 32 0) with bufferIndex := 0 })
    (by decide)
  exact ⟨by decide, by decide, (m1.1 (by decide)).1,
    (m1.1 (by decide)).2.2 0 (by norm_num) (by norm_num) (by norm_num),
    by decide, m2.2 (by decide)⟩

/-- **C6.** Generation is deterministic: generators initialised with equal
seeds emit identical draw streams, and the number-set generation applied to
equal seeds produces identical results.  (The embedding is pure, mirroring
the source, whose generator state is private to each call and whose
arithmetic has no hidden nondeterminism.) -/
theorem generation_deterministic (s₁ s₂ : List Nat) (h : s₁ = s₂) :
    (∀ n, drawStream (mkGen s₁) n = drawStream (mkGen s₂) n) ∧
    (∀ count mn mx, generateUniqueNumbers s₁ count mn mx =
      generateUniqueNumbers s₂ count mn mx) := by
  subst h
  exact ⟨fun _ => rfl, fun _ _ _ => rfl⟩

/-- Witness for C6 at the concrete all-zero 32-byte seed. -/
theorem generation_deterministic_witness :
    List.replicate 32 0 = List.replicate 32 0 ∧
    drawStream (mkGen (List.replicate 32 0)) 0 =
      drawStream (mkGen (List.replicate 32 0)) 0 ∧
    generateUniqueNumbers (List.replicate 32 0) 6 1 49 =
      generateUniqueNumbers (List.replicate 32 0) 6 1 49 := by
  have main := generation_deterministic (List.replicate 32 0) (List.replicate 32 0) rfl
  exact ⟨rfl, main.1 0, main.2 6 1 49⟩

/-! ### Permutation facts about the in-place swap -/

theorem cons_set_perm (x : Int) (xs : List Int) : ∀ (j : Nat), j < xs.length →
    List.Perm (xs.getD j 0 :: xs.set j x) (x :: xs) := by
  induction xs with
  | nil => intro j h; simp at h
  | cons y ys ih =>
    intro j h
    cases j with
    | zero =>
      simpa [List.getD] using List.Perm.swap x y ys
    | succ j =>
      have h' : j < ys.length := by simpa using h
      have e1 : (y :: ys).getD (j + 1) 0 = ys.getD j 0 := by
        simp [List.getD_eq_getElem?_getD]
      have e2 : (y :: ys).set (j + 1) x = y :: ys.set j x := rfl
      rw [e1, e2]
      exact ((List.Perm.swap y (ys.getD j 0) (ys.set j x)).trans
        ((ih j h').cons y)).trans (List.Perm.swap x y ys)

theorem swap_length (l : List Int) (i j : Nat) : (swap l i j).length = l.length := by
  simp [swap]

theorem swap_perm (l : List Int) : ∀ (i j : Nat), i < l.length → j < l.length →
    List.Perm (swap l i j) l := by
  induction l with
  | nil => intro i j hi _; simp at hi
  | cons a t ih =>
    intro i j hi hj
    cases i with
    | zero =>
      cases j with
      | zero =>
        have e : swap (a :: t) 0 0 = a :: t := by simp [swap, List.getD]
        rw [e]
      | succ j =>
        have hj' : j < t.length := by simpa using hj
        have e : swap (a :: t) 0 (j + 1) = t.getD j 0 :: t.set j a := by
          simp [swap, List.getD_eq_getElem?_getD]
        rw [e]
        exact cons_set_perm a t j hj'
    | succ i =>
      cases j with
      | zero =>
        have hi' : i < t.length := by simpa using hi
        have e : swap (a :: t) (i + 1) 0 = t.getD i 0 :: t.set i a := by
          simp [swap, List.getD_eq_getElem?_getD]
        rw [e]
        exact cons_set_perm a t i hi'
      | succ j =>
        have hi' : i < t.length := by simpa using hi
        have hj' : j < t.length := by simpa using hj
        have e : swap (a :: t) (i + 1) (j + 1) = a :: swap t i j := by
          simp [swap, List.getD_eq_getElem?_getD]
        rw [e]
        exact (ih i j hi' hj').cons a

/-! ### Well-formedness of generator draws -/

theorem getD_lt_bound {L : List Nat} {B : Nat} (hB : 0 < B)
    (h : ∀ x ∈ L, x < B) (n : Nat) : L.getD n 0 < B := by
  rcases lt_or_le n L.length with hn | hn
  · rw [List.getD_eq_getElem?_getD, List.getElem?_eq_getElem hn]
    exact h _ (List.getElem_mem hn)
  · rw [List.getD_eq_getElem?_getD, List.getElem?_eq_none hn]
    simpa using hB

theorem chachaBlock_words_lt (s : List Nat) : ∀ x ∈ chachaBlock s, x < 2^32 := by
  intro x hx
  simp only [chachaBlock, addWords, List.mem_map] at hx
  obtain ⟨i, _, rfl⟩ := hx
  exact Nat.mod_lt _ (by norm_num)

theorem mkGen_wf (seed : List Nat) : GenWF (mkGen seed) := by
  intro x hx
  have := List.eq_of_mem_replicate hx
  subst this
  norm_num

theorem next_wf {g : GenState} (h : GenWF g) : GenWF (next g).2 := by
  by_cases h16 : 16 ≤ g.bufferIndex
  · intro x hx
    simp only [next, if_pos h16] at hx
    exact chachaBlock_words_lt g.state x hx
  · intro x hx
    simp only [next, if_neg h16] at hx
    exact h x hx

theorem next_fst_lt {g : GenState} (h : GenWF g) : (next g).1 < 2^32 := by
  by_cases h16 : 16 ≤ g.bufferIndex
  · simp only [next, if_pos h16]
    exact getD_lt_bound (by norm_num) (chachaBlock_words_lt g.state) _
  · simp only [next, if_neg h16]
    exact getD_lt_bound (by norm_num) h _

/-! ### The Fisher–Yates loop -/

theorem fyLoop_snd (i : Nat) : ∀ (pool : List Int) (g : GenState),
    (fyLoop pool g i).2 = stepN i g := by
  induction i with
  | zero => intro pool g; rfl
  | succ i ih =>
    intro pool g
    show (fyLoop (swap pool (i + 1) (drawIndex (next g).1 (i + 2))) (next g).2 i).2 =
      stepN (i + 1) g
    rw [ih]
    simp [stepN, Function.iterate_succ_apply]

theorem fyLoop_fst (i : Nat) : ∀ (pool : List Int) (g : GenState),
    (fyLoop pool g i).1 = specShuffleLoop pool g i := by
  induction i with
  | zero => intro pool g; rfl
  | succ i ih =>
    intro pool g
    show (fyLoop (swap pool (i + 1) (drawIndex (next g).1 (i + 2))) (next g).2 i).1 =
      specShuffleLoop (swap pool (i + 1) ((next g).1 * (i + 2) / 2^32)) (next g).2 i
    rw [ih]
    rfl

theorem fyLoop_perm (i : Nat) : ∀ (pool : List Int) (g : GenState),
    i < pool.length → GenWF g → List.Perm (fyLoop pool g i).1 pool := by
  induction i with
  | zero => exact fun pool g _ _ => List.Perm.refl _
  | succ i ih =>
    intro pool g hi hg
    have hv : (next g).1 < 2^32 := next_fst_lt hg
    have hj : drawIndex (next g).1 (i + 2) < i + 2 := by
      rw [drawIndex, Nat.div_lt_iff_lt_mul (by norm_num : 0 < 2^32)]
      calc (next g).1 * (i + 2) < 2^32 * (i + 2) :=
            Nat.mul_lt_mul_of_pos_right hv (by omega)
        _ = (i + 2) * 2^32 := Nat.mul_comm _ _
    have hswap : List.Perm (swap pool (i + 1) (drawIndex (next g).1 (i + 2))) pool :=
      swap_perm pool (i + 1) _ hi (by omega)
    have hlen : i < (swap pool (i + 1) (drawIndex (next g).1 (i + 2))).length := by
      rw [swap_length]; omega
    exact (ih _ _ hlen (next_wf hg)).trans hswap

theorem mkPool_length (mn mx : Int) : (mkPool mn mx).length = (mx - mn + 1).toNat := by
  rw [mkPool, List.length_map, List.length_range]

theorem mkPool_nodup (mn mx : Int) : (mkPool mn mx).Nodup := by
  rw [mkPool]
  refine List.Nodup.map ?_ (List.nodup_range _)
  intro a b h
  have h' : mn + (a : Int) = mn + (b : Int) := h
  omega

theorem mkPool_mem {mn mx : Int} {x : Int} (hx : x ∈ mkPool mn mx) :
    mn ≤ x ∧ x ≤ mx := by
  simp only [mkPool, List.mem_map, List.mem_range] at hx
  obtain ⟨k, hk, rfl⟩ := hx
  omega

/-- **C2.** For every `count ≤ max - min + 1` and every generator state, the
sampler builds the pool `[min, …, max]` (`mkPool`), runs the full in-place
Fisher–Yates shuffle over it (drawing `j = floor(rng() * (i + 1))` for `i`
from `pool.length - 1` down to `1`, as described by `specShuffle`), returns
the first `count` shuffled elements sorted ascending, and consumes exactly
`max - min` draws from the generator (as a natural number; the precondition
forces `max ≥ min - 1`, and for the empty-range edge `max = min - 1` both
the pool walk and `max - min` truncate to zero draws). -/
theorem sampler_follows_spec (g : GenState) (count : Nat) (mn mx : Int)
    (hc : (count : Int) ≤ mx - mn + 1) :
    generateUniqueNumbersCore g count mn mx =
      .ok (List.insertionSort (fun a b => a ≤ b)
            ((specShuffle (mkPool mn mx) g).take count),
          stepN (mx - mn).toNat g) := by
  have hlen : (mkPool mn mx).length - 1 = (mx - mn).toNat := by
    rw [mkPool_length]; omega
  simp only [generateUniqueNumbersCore, if_neg (not_lt.mpr hc), specShuffle]
  rw [fyLoop_fst, fyLoop_snd, hlen]

/-- Witness for C2 at the all-zero-seed generator, `count = 6`, range 1–49. -/
theorem sampler_follows_spec_witness :
    ((6 : Nat) : Int) ≤ 49 - 1 + 1 ∧
    generateUniqueNumbersCore (mkGen (List.replicate 32 0)) 6 1 49 =
      .ok (List.insertionSort (fun a b => a ≤ b)
            ((specShuffle (mkPool 1 49) (mkGen (List.replicate 32 0))).take 6),
          stepN ((49 : Int) - 1).toNat (mkGen (List.replicate 32 0))) := by
  exact ⟨by decide,
    sampler_follows_spec (mkGen (List.replicate 32 0)) 6 1 49 (by decide)⟩

/-- **C3.** For every 32-byte seed and every valid input
(`count ≤ max - min + 1`), the generated set has length exactly `count`,
has no duplicates, lies within `[min, max]`, and is sorted ascending. -/
theorem generate_valid (seed : List Nat) (count : Nat) (mn mx : Int)
    (hc : (count : Int) ≤ mx - mn + 1) :
    ∃ l, generateUniqueNumbers seed count mn mx = .ok l ∧
      l.length = count ∧ l.Nodup ∧ (∀ x ∈ l, mn ≤ x ∧ x ≤ mx) ∧
      l.Sorted (fun a b => a ≤ b) := by
  have hlen_pool : (mkPool mn mx).length = (mx - mn + 1).toNat := mkPool_length mn mx
  have hcount_le : count ≤ (mkPool mn mx).length := by rw [hlen_pool]; omega
  have hperm : List.Perm
      (fyLoop (mkPool mn mx) (mkGen seed) ((mkPool mn mx).length - 1)).1
      (mkPool mn mx) := by
    rcases Nat.eq_zero_or_pos (mkPool mn mx).length with h0 | hpos
    · rw [h0]
      exact List.Perm.refl _
    · exact fyLoop_perm _ _ _ (by omega) (mkGen_wf seed)
  have hok : generateUniqueNumbers seed count mn mx =
      .ok (List.insertionSort (fun a b => a ≤ b)
        ((fyLoop (mkPool mn mx) (mkGen seed) ((mkPool mn mx).length - 1)).1.take count)) := by
    simp [generateUniqueNumbers, generateUniqueNumbersCore, if_neg (not_lt.mpr hc),
      Except.map]
  refine ⟨_, hok, ?_, ?_, ?_, ?_⟩
  · rw [(List.perm_insertionSort _ _).length_eq, List.length_take]
    have := hperm.length_eq
    omega
  · have hnodup := hperm.symm.nodup (mkPool_nodup mn mx)
    have htake := List.Nodup.sublist (List.take_sublist count _) hnodup
    exact ((List.perm_insertionSort _ _).symm).nodup htake
  · intro x hx
    have hx1 := (List.mem_insertionSort _).mp hx
    have hx2 := (List.take_sublist count _).subset hx1
    exact mkPool_mem (hperm.subset hx2)
  · exact List.sorted_insertionSort _ _

/-- Witness for C3: the all-zero seed with `count = 6` from 1–49. -/
theorem generate_valid_witness :
    ((6 : Nat) : Int) ≤ 49 - 1 + 1 ∧
    ∃ l, generateUniqueNumbers (List.replicate 32 0) 6 1 49 = .ok l ∧
      l.length = 6 ∧ l.Nodup ∧ (∀ x ∈ l, 1 ≤ x ∧ x ≤ 49) ∧
      l.Sorted (fun a b => a ≤ b) :=
  ⟨by decide, generate_valid (List.replicate 32 0) 6 1 49 (by decide)⟩

/-- **C8.** When `count > max - min + 1` the sampler fails with the
range-too-small error, producing no partial result — the outcome does not
depend on the generator at all, so no draw is consumed; when
`count ≤ max - min + 1` that error is never raised (the call succeeds). -/
theorem range_check (g : GenState) (count : Nat) (mn mx : Int) :
    ((count : Int) > mx - mn + 1 →
      generateUniqueNumbersCore g count mn mx =
        .error "Cannot generate count unique numbers from range min-max" ∧
      ∀ g', generateUniqueNumbersCore g' count mn mx =
        generateUniqueNumbersCore g count mn mx) ∧
    ((count : Int) ≤ mx - mn + 1 →
      ∃ l gf, generateUniqueNumbersCore g count mn mx = .ok (l, gf)) := by
  constructor
  · intro h
    constructor
    · simp [generateUniqueNumbersCore, if_pos h]
    · intro g'
      simp [generateUniqueNumbersCore, if_pos h]
  · intro h
    refine ⟨List.insertionSort (fun a b => a ≤ b)
        ((fyLoop (mkPool mn mx) g ((mkPool mn mx).length - 1)).1.take count),
      (fyLoop (mkPool mn mx) g ((mkPool mn mx).length - 1)).2, ?_⟩
    simp [generateUniqueNumbersCore, if_neg (not_lt.mpr h)]

/-- Witness for C8: `count = 10` from 1–5 errors (spec Scenario D), while
`count = 3` from 1–5 succeeds. -/
theorem range_check_witness :
    ((10 : Nat) : Int) > 5 - 1 + 1 ∧
    generateUniqueNumbersCore (mkGen (List.replicate 32 0)) 10 1 5 =
      .error "Cannot generate count unique numbers from range min-max" ∧
    ((3 : Nat) : Int) ≤ 5 - 1 + 1 ∧
    (∃ l gf, generateUniqueNumbersCore (mkGen (List.replicate 32 0)) 3 1 5 =
      .ok (l, gf)) := by
  have m := range_check (mkGen (List.replicate 32 0)) 10 1 5
  have m' := range_check (mkGen (List.replicate 32 0)) 3 1 5
  exact ⟨by decide, (m.1 (by decide)).1, by decide, m'.2 (by decide)⟩

/-- **C7** (divergence witness).  The claim — and the source's own error
message `"Invalid hex character in beacon value"` — demand that every input
containing a character outside `[0-9A-Fa-f]` be rejected.  But the check
`isNaN(parseInt(pair, 16))` only fires when `parseInt` can parse no leading
digit at all: `parseInt("0G", 16)` parses the prefix `"0"` and returns `0`,
and `parseInt("-1", 16)` returns `-1` (stored as byte `255` by the
`Uint8Array` coercion).  Both inputs decode without an error. -/
theorem hexToBytes_accepts_nonhex :
    hexToBytes ('0' :: 'G' :: []) = .ok [0] ∧
    hexToBytes ('-' :: '1' :: []) = .ok [255] := by
  exact ⟨rfl, rfl⟩

/-- **C10.** `hexToBytes` strips every ECMAScript-`\s` whitespace character
before the length check and decoding, so decoding any string gives the same
result as decoding it with all whitespace removed; in particular whitespace
interleaved with hex digits is accepted. -/
theorem hexToBytes_strips_whitespace :
    (∀ s : List Char, hexToBytes s =
      hexToBytes (s.filter (fun c => !(isJsWhitespace c)))) ∧
    hexToBytes ('a' :: ' ' :: 'b' :: '\t' :: 'c' :: '\n' :: 'd' :: []) =
      .ok [0xab, 0xcd] := by
  constructor
  · intro s
    have e : (s.filter (fun c => !(isJsWhitespace c))).filter
        (fun c => !(isJsWhitespace c)) = s.filter (fun c => !(isJsWhitespace c)) := by
      rw [List.filter_filter]
      simp
    rw [hexToBytes, hexToBytes, e]
  · rfl

theorem dedup_length_eq_iff {numbers : List ℚ} :
    numbers.dedup.length = numbers.length ↔ numbers.Nodup := by
  constructor
  · intro h
    exact List.dedup_eq_self.mp (numbers.dedup_sublist.eq_of_length h)
  · intro h
    rw [h.dedup]

theorem elem_check_iff {x mn mx : ℚ} :
    (!(decide (x < mn) || decide (mx < x) || !x.isInt)) = true ↔
      mn ≤ x ∧ x ≤ mx ∧ x.den = 1 := by
  simp [Rat.isInt, not_lt, and_assoc]

/-- **C9.** The validator returns `true` exactly when the sequence has the
expected length, its elements are pairwise distinct, and every element is an
integer within `[min, max]`.  (It is a pure boolean function of its inputs:
the embedding, like the source, neither throws nor mutates.) -/
theorem validateNumbers_spec (numbers : List ℚ) (expectedCount : Nat) (mn mx : ℚ) :
    validateNumbers numbers expectedCount mn mx = true ↔
      (numbers.length = expectedCount ∧ numbers.Nodup ∧
        ∀ x ∈ numbers, mn ≤ x ∧ x ≤ mx ∧ x.den = 1) := by
  rw [validateNumbers]
  by_cases h1 : numbers.length ≠ expectedCount
  · rw [if_pos h1]
    simp only [Bool.false_eq_true, false_iff]
    rintro ⟨hl, -, -⟩
    exact h1 hl
  · rw [if_neg h1]
    push_neg at h1
    by_cases h2 : numbers.dedup.length ≠ expectedCount
    · rw [if_pos h2]
      simp only [Bool.false_eq_true, false_iff]
      rintro ⟨hl, hnd, -⟩
      exact h2 (by rw [hnd.dedup, hl])
    · rw [if_neg h2]
      push_neg at h2
      have hnd : numbers.Nodup := dedup_length_eq_iff.mp (by rw [h2, h1])
      rw [List.all_eq_true]
      simp only [elem_check_iff]
      exact ⟨fun h => ⟨h1, hnd, h⟩, fun h => h.2.2⟩
